import Mathlib

/-!
Verification development for the ADIOS2 staging MPMD test harness
(`testing/adios2/engine/staging-common/TestStagingMPMD.cpp`) and the
Python binding glue (`bindings/python/include/EnginePy.h`), together with
the step-controller / redistribution-engine / variable-registry behaviour
they exercise, modelled from the specification where the engine sources
are not part of this tree.

All float arithmetic of the harness is embedded exactly over `ℚ`:
every value the harness computes (`1000*step + x*gndx + y/1000`) is
produced by the same deterministic expression on both the writer and the
reader side, so equalities between such values are faithfully decided in
exact rational arithmetic.  `size_t` products are reduced modulo `2^64`
as in the source.
-/

set_option maxRecDepth 4000

namespace StagingMPMD

/-- Local block extent of every writer in the x (first, slowest) dimension:
`size_t ndx = 50;` in `MainWriters`. -/
def ndx : Nat := 50

/-- Local block extent of every writer in the y (second, fastest) dimension:
`size_t ndy = 60;` in `MainWriters`. -/
def ndy : Nat := 60

/-- `TestStagingMPMD::GetValue`: encodes position `x,y` of a `gndx × gndy`
global array at a given step as `1000.0f*step + offsx*gndx + offsy/1000.0f`.
The `size_t` product `offsx * gndx` wraps modulo `2^64` before the floating
additions; the arithmetic itself is embedded exactly over `ℚ`.  The `gndy`
argument is accepted but, as in the source, never used. -/
def GetValue (gndx gndy offsx offsy : Nat) (step : Nat) : ℚ :=
  1000 * (step : ℚ) + (((offsx * gndx) % 2 ^ 64 : Nat) : ℚ) + (offsy : ℚ) / 1000

/-- x-position of a writer rank in the `npx × npy` writer grid:
`size_t posx = rank % npx;` in `MainWriters`. -/
def writerPosX (npx rank : Nat) : Nat := rank % npx

/-- y-position of a writer rank in the writer grid:
`size_t posy = rank / npx;` in `MainWriters`. -/
def writerPosY (npx rank : Nat) : Nat := rank / npx

/-- x-offset of a writer rank's block: `size_t offsx = posx * ndx;`. -/
def writerOffsX (npx rank : Nat) : Nat := writerPosX npx rank * ndx

/-- y-offset of a writer rank's block: `size_t offsy = posy * ndy;`. -/
def writerOffsY (npx rank : Nat) : Nat := writerPosY npx rank * ndy

/-- The `myArray` buffer a writer rank fills for one step in `MainWriters`:
the double loop `for j < ndx, for i < ndy: myArray[idx] = GetValue(gndx,
gndy, offsx+j, offsy+i, step); ++idx` with `idx = j*ndy + i`, over the
global shape `gndx = npx*ndx`, `gndy = npy*ndy`. -/
def writerFill (npx npy rank step : Nat) : List ℚ :=
  (List.range (ndx * ndy)).map fun idx =>
    GetValue (npx * ndx) (npy * ndy) (writerOffsX npx rank + idx / ndy)
      (writerOffsY npx rank + idx % ndy) step

/-- A selection: `start` offsets and `count` extents of one 2D sub-block,
as built in `MainReaders` (`adios2::Dims count({ndx, ndy}); adios2::Dims
start({offsx, offsy}); vMyArray->SetSelection({start, count})`). -/
structure Box where
  offsx : Nat
  offsy : Nat
  cntx : Nat
  cnty : Nat
  deriving Repr, DecidableEq

/-- Whether global cell `(x, y)` lies inside a selection. -/
def memBox (b : Box) (x y : Nat) : Prop :=
  b.offsx ≤ x ∧ x < b.offsx + b.cntx ∧ b.offsy ≤ y ∧ y < b.offsy + b.cnty

instance (b : Box) (x y : Nat) : Decidable (memBox b x y) := by
  unfold memBox; infer_instance

/-- One dimension of the reader decomposition in `MainReaders`: the offset of
block `p` out of `np` blocks over extent `g` is `(g / np) * p`
(`size_t ndx = gndx / npx; size_t offsx = ndx * posx;`). -/
def blockStart (g np p : Nat) : Nat := g / np * p

/-- One dimension of the reader decomposition in `MainReaders`: the count of
block `p` is `g / np`, except that the last block takes all the rest
(`if (posx == npx - 1) { ndx = gndx - ndx * (npx - 1); }`). -/
def blockCount (g np p : Nat) : Nat :=
  if p = np - 1 then g - g / np * (np - 1) else g / np

/-- The selection reader rank `rank` of an `npx × npy` reader grid computes
for a `gndx × gndy` global array in `MainReaders`
(`posx = rank % npx; posy = rank / npx`). -/
def readerSel (gndx gndy npx npy rank : Nat) : Box :=
  { offsx := blockStart gndx npx (rank % npx)
    offsy := blockStart gndy npy (rank / npx)
    cntx := blockCount gndx npx (rank % npx)
    cnty := blockCount gndy npy (rank / npx) }

/-- The selection a writer rank declares in `MainWriters` via
`DefineVariable("myArray", {gndx, gndy}, {offsx, offsy}, {ndx, ndy})`:
a constant `ndx × ndy` block at the rank's grid offset. -/
def writerSel (npx rank : Nat) : Box :=
  { offsx := writerOffsX npx rank
    offsy := writerOffsY npx rank
    cntx := ndx
    cnty := ndy }

/-- The set of `(selection, buffer)` payloads the `npx × npy` writer group
contributes to one step: rank `r` puts `writerFill` under `writerSel`
(`writer.PutDeferred(varArray, myArray.data())` in `MainWriters`). -/
def writerPayloads (npx npy step : Nat) : List (Box × List ℚ) :=
  (List.range (npx * npy)).map fun rank =>
    (writerSel npx rank, writerFill npx npy rank step)

/-- Element of a payload's buffer at global cell `(x, y)` of its selection,
with the source-local row-major linearization `(x-offsx)*cnty + (y-offsy)`
used by the redistribution engine. -/
def payloadAt (p : Box × List ℚ) (x y : Nat) : ℚ :=
  p.2.getD ((x - p.1.offsx) * p.1.cnty + (y - p.1.offsy)) 0

/-- Modelled from the spec: the redistribution engine (not part of this
source tree; spec §4.4) resolves global cell `(x, y)` of a sealed step from
the payload whose selection contains the cell, processing payloads in
registration order with last-writer-wins on overlap; cells covered by no
payload keep the destination's prior contents `dflt`. -/
def redistributeCell (payloads : List (Box × List ℚ)) (x y : Nat) (dflt : ℚ) : ℚ :=
  payloads.foldl (fun acc p => if memBox p.1 x y then payloadAt p x y else acc) dflt

/-- The buffer reader rank `rank` of an `npxr × npyr` reader grid receives
from `GetDeferred` over its selection against the step sealed by the
`npxw × npyw` writer group: destination-local row-major linearization over
the selection's counts, each cell resolved by the redistribution engine. -/
def readerReceived (npxw npyw npxr npyr rank step : Nat) : List ℚ :=
  let S := readerSel (npxw * ndx) (npyw * ndy) npxr npyr rank
  (List.range (S.cntx * S.cnty)).map fun idx =>
    redistributeCell (writerPayloads npxw npyw step)
      (S.offsx + idx / S.cnty) (S.offsy + idx % S.cnty) 0

/-- A run parameter set of the test harness: `npx_w × npy_w` writers and
`npx_r × npy_r` readers (`struct RunParams`). -/
structure RunParams where
  npx_w : Nat
  npy_w : Nat
  npx_r : Nat
  npy_r : Nat
  deriving Repr, DecidableEq

/-- `CreateRunParams`: the full list of writer/reader decomposition pairs
the harness instantiates, in source order. -/
def CreateRunParams : List RunParams :=
  [⟨1, 1, 1, 1⟩,
   ⟨2, 1, 1, 1⟩, ⟨1, 2, 1, 1⟩, ⟨1, 1, 2, 1⟩, ⟨1, 1, 1, 2⟩,
   ⟨2, 1, 2, 1⟩, ⟨2, 1, 1, 2⟩,
   ⟨1, 1, 1, 7⟩, ⟨1, 7, 1, 1⟩, ⟨2, 2, 2, 2⟩,
   ⟨3, 5, 1, 1⟩, ⟨1, 1, 5, 3⟩]

/-- Pacing and length of one test scenario: number of writer steps and the
artificial per-step delays (`TestCommon(p, steps, writer_sleeptime,
reader_sleeptime)`). -/
structure TestScenario where
  steps : Nat
  writerSleep : Nat
  readerSleep : Nat
  deriving Repr, DecidableEq

/-- `TEST_P(TestStagingMPMD, SingleStep)`: `TestCommon(p, 1, 0, 0)`. -/
def scenarioSingleStep : TestScenario := ⟨1, 0, 0⟩

/-- `TEST_P(TestStagingMPMD, MultipleSteps)`: `TestCommon(p, 10, 0, 0)`. -/
def scenarioMultipleSteps : TestScenario := ⟨10, 0, 0⟩

/-- `TEST_P(TestStagingMPMD, SlowWriter)`: `TestCommon(p, 5, 500, 0)`. -/
def scenarioSlowWriter : TestScenario := ⟨5, 500, 0⟩

/-- `TEST_P(TestStagingMPMD, SlowReader)`: `TestCommon(p, 5, 0, 500)`. -/
def scenarioSlowReader : TestScenario := ⟨5, 0, 500⟩

/-- `TestStagingMPMD::CheckData`: scans the received buffer in the double
loop `for j < ndx, for i < ndy` with `idx = j*ndy + i` and compares each
element against `GetValue(gndx, gndy, offsx+j, offsy+i, step)`; returns
`true` when no mismatch is found (the source throws on the first one). -/
def CheckData (array : List ℚ) (gndx gndy offsx offsy cx cy step : Nat) : Bool :=
  (List.range cx).all fun j =>
    (List.range cy).all fun i =>
      decide (array.getD (j * cy + i) 0
        = GetValue gndx gndy (offsx + j) (offsy + i) step)

/-- Status values of `BeginStep`, as in `adios2::StepStatus` and spec §6:
`{OK, NotReady, EndOfStream}`. -/
inductive StepStatus where
  | OK
  | NotReady
  | EndOfStream
  deriving Repr, DecidableEq

/-- Modelled from the spec: the per-stream state the reader-side step
controller observes (§3, §4.3; the step controller itself is not part of
this source tree): how many steps the writer group has sealed so far, and
whether the writer side has closed the stream. -/
structure StreamState where
  sealedCount : Nat
  closed : Bool
  deriving Repr, DecidableEq

/-- Modelled from the spec: the reader-side step-controller state (§4.3):
the sequence number of the next not-yet-admitted step. -/
structure ReaderState where
  nextStep : Nat
  deriving Repr, DecidableEq

/-- The timeout the harness passes on every reader `BeginStep` call:
`reader.BeginStep(adios2::StepMode::NextAvailable, 60.0f)`. -/
def readerBeginStepTimeout : ℚ := 60

/-- Modelled from the spec: `BeginStep(NextAvailable, timeout)` on the
reader (§4.3; the step controller is not part of this source tree).
Returns `OK` with the next not-yet-admitted sealed step and advances the
controller when such a step exists; otherwise `EndOfStream` when the
writer side has closed the stream, else `NotReady` (standing for "the
timeout elapsed with no step available"; real-time blocking is outside
the model). -/
def beginStepNextAvailable (st : StreamState) (rd : ReaderState) :
    StepStatus × Option Nat × ReaderState :=
  if rd.nextStep < st.sealedCount then
    (StepStatus.OK, some rd.nextStep, ⟨rd.nextStep + 1⟩)
  else if st.closed then
    (StepStatus.EndOfStream, none, rd)
  else
    (StepStatus.NotReady, none, rd)

/-- The reader loop of `MainReaders` over the spec-modelled controller:
`while (true) { status = reader.BeginStep(NextAvailable, 60.0f); if
(status != OK) break; ... }` — collects the sequence numbers of the
admitted steps in order and reports the status that ended the loop. -/
def readerLoop (st : StreamState) (rd : ReaderState) : List Nat × StepStatus :=
  if _h : rd.nextStep < st.sealedCount then
    let rest := readerLoop st ⟨rd.nextStep + 1⟩
    (rd.nextStep :: rest.1, rest.2)
  else if st.closed then ([], StepStatus.EndOfStream)
  else ([], StepStatus.NotReady)
termination_by st.sealedCount - rd.nextStep

/-- Closed set of numeric element types of the variable registry
(spec §9: a tagged variant over the numeric element types). -/
inductive TypeTag where
  | float32
  | float64
  | int32
  | int64
  | uint32
  | uint64
  deriving Repr, DecidableEq

/-- A registered variable's immutable attributes: element type tag and
global shape (spec §3). -/
structure VarDecl where
  type : TypeTag
  shape : List Nat
  deriving Repr, DecidableEq

/-- Failure of `Define` (spec §4.1). -/
inductive DefineError where
  | DuplicateDefinition
  deriving Repr, DecidableEq

/-- Modelled from the spec: `Define(name, type, globalShape)` of the
variable registry (§4.1; the registry is not part of this source tree).
Idempotent when an identical declaration already exists under the name
(returns the existing handle, registry unchanged); fails with
`DuplicateDefinition` when the name is taken with a different type or
shape; otherwise registers the declaration.  A handle is the entry's
position in the registry. -/
def DefineVariable :
    List (String × VarDecl) → String → TypeTag → List Nat →
      Except DefineError (List (String × VarDecl) × Nat)
  | [], name, ty, shape => .ok ([(name, ⟨ty, shape⟩)], 0)
  | e :: rest, name, ty, shape =>
    if e.1 = name then
      if e.2 = ⟨ty, shape⟩ then .ok (e :: rest, 0)
      else .error .DuplicateDefinition
    else
      match DefineVariable rest name ty shape with
      | .ok (reg, i) => .ok (e :: reg, i + 1)
      | .error err => .error err

/-- The Python-facing variable record of `VariablePy`, with the two fields
`EnginePy::DefineVariableInADIOS` mutates: `m_VariablePtr` (the address of
the registry's variable, modelled as an optional registry handle, `none`
standing for an unset pointer) and `m_IsVariableDefined`. -/
structure VariablePy where
  m_Name : String
  m_LocalDimensions : List Nat
  m_GlobalDimensions : List Nat
  m_GlobalOffsets : List Nat
  m_VariablePtr : Option Nat
  m_IsVariableDefined : Bool
  deriving Repr, DecidableEq

/-- `EnginePy::DefineVariableInADIOS<T>`: calls
`m_ADIOSPy.DefineVariable<T>(variable.m_Name, ...)` (modelled from the
spec's registry `Define`, since `ADIOSPy` is not part of this source
tree), then stores the resulting variable's address in
`variable.m_VariablePtr` and sets `variable.m_IsVariableDefined = true`.
A thrown `DuplicateDefinition` propagates and leaves the record
untouched. -/
def DefineVariableInADIOS (reg : List (String × VarDecl)) (ty : TypeTag)
    (v : VariablePy) :
    Except DefineError (List (String × VarDecl) × VariablePy) :=
  match DefineVariable reg v.m_Name ty v.m_GlobalDimensions with
  | .ok (reg2, h) =>
    .ok (reg2, { v with m_VariablePtr := some h, m_IsVariableDefined := true })
  | .error err => .error err

/-- `EnginePy::WriteVariableInADIOS<T>`: dereferences
`variable.m_VariablePtr` through `reinterpret_cast<Variable<T> *>` with no
check and hands the buffer to the engine.  An unset pointer, a dangling
handle, or a registry entry of a different element type than `T` is
undefined behaviour, modelled as `none`; a well-typed write yields the
handle/buffer pair passed to the engine. -/
def WriteVariableInADIOS (reg : List (String × VarDecl)) (ty : TypeTag)
    (v : VariablePy) (data : List ℚ) : Option (Nat × List ℚ) :=
  match v.m_VariablePtr with
  | none => none
  | some h =>
    match reg[h]? with
    | none => none
    | some e => if e.2.type = ty then some (h, data) else none

section BlockLemmas

variable {g np p q : Nat}

theorem blockStart_add_blockCount_le (hnp : 1 ≤ np) (hp : p < np) :
    blockStart g np p + blockCount g np p ≤ g := by
  unfold blockStart blockCount
  rcases eq_or_ne p (np - 1) with h | h
  · subst h
    rw [if_pos rfl]
    have hle : g / np * (np - 1) ≤ g :=
      le_trans (Nat.mul_le_mul_left _ (Nat.sub_le np 1)) (Nat.div_mul_le_self g np)
    omega
  · simp only [if_neg h]
    have hp1 : p + 1 ≤ np - 1 := by omega
    calc g / np * p + g / np = g / np * (p + 1) := by ring
      _ ≤ g / np * (np - 1) := Nat.mul_le_mul_left _ hp1
      _ ≤ g / np * np := Nat.mul_le_mul_left _ (Nat.sub_le np 1)
      _ ≤ g := Nat.div_mul_le_self g np

theorem blockCount_pos (hnp : 1 ≤ np) (hg : np ≤ g) (hp : p < np) :
    0 < blockCount g np p := by
  have hb : 1 ≤ g / np := (Nat.one_le_div_iff (by omega)).mpr hg
  unfold blockCount
  rcases eq_or_ne p (np - 1) with h | h
  · rw [if_pos h]
    have : g / np * (np - 1) + g / np = g / np * np := by
      have : np - 1 + 1 = np := by omega
      calc g / np * (np - 1) + g / np = g / np * (np - 1 + 1) := by ring
        _ = g / np * np := by rw [this]
    have hmul : g / np * np ≤ g := Nat.div_mul_le_self g np
    omega
  · simp only [if_neg h]; omega

/-- Blocks in one dimension are ordered: block `p` ends no later than block
`q` starts, whenever `p < q < np`. -/
theorem blockStart_add_blockCount_le_blockStart (hpq : p < q) (hq : q < np) :
    blockStart g np p + blockCount g np p ≤ blockStart g np q := by
  unfold blockStart blockCount
  have h : p ≠ np - 1 := by omega
  simp only [if_neg h]
  calc g / np * p + g / np = g / np * (p + 1) := by ring
    _ ≤ g / np * q := Nat.mul_le_mul_left _ (by omega)

/-- Every coordinate `x < g` lies in the block of index
`min (x / (g / np)) (np - 1)`. -/
theorem blockCover (hnp : 1 ≤ np) (hg : np ≤ g) {x : Nat} (hx : x < g) :
    ∃ p < np, blockStart g np p ≤ x ∧ x < blockStart g np p + blockCount g np p := by
  have hb : 1 ≤ g / np := (Nat.one_le_div_iff (by omega)).mpr hg
  set b := g / np with hbdef
  refine ⟨min (x / b) (np - 1), by omega, ?_, ?_⟩
  · unfold blockStart
    rcases le_or_lt (x / b) (np - 1) with h | h
    · rw [min_eq_left h, ← hbdef]
      exact Nat.mul_div_le x b
    · rw [min_eq_right (le_of_lt h), ← hbdef]
      calc b * (np - 1) ≤ b * (x / b) := Nat.mul_le_mul_left _ (le_of_lt h)
        _ ≤ x := Nat.mul_div_le x b
  · rcases lt_or_le (x / b) (np - 1) with h | h
    · rw [min_eq_left (le_of_lt h)]
      have hne : x / b ≠ np - 1 := by omega
      unfold blockStart blockCount
      simp only [if_neg hne, ← hbdef]
      have hmod : x % b < b := Nat.mod_lt x (by omega)
      have hdm : b * (x / b) + x % b = x := Nat.div_add_mod x b
      omega
    · rw [min_eq_right h]
      have hend := blockStart_add_blockCount_le (g := g) (p := np - 1) hnp (by omega)
      have hcnt := blockCount_pos (g := g) (p := np - 1) hnp hg (by omega)
      unfold blockStart blockCount at hend hcnt ⊢
      rw [if_pos rfl] at hend hcnt ⊢
      rw [← hbdef] at hend hcnt ⊢
      omega

/-- Distinct block indices in one dimension hold disjoint coordinate
ranges. -/
theorem blockDisjoint (hp : p < np) (hq : q < np) (hne : p ≠ q) {x : Nat}
    (h1 : blockStart g np p ≤ x ∧ x < blockStart g np p + blockCount g np p)
    (h2 : blockStart g np q ≤ x ∧ x < blockStart g np q + blockCount g np q) :
    False := by
  rcases Nat.lt_or_ge p q with h | h
  · have := blockStart_add_blockCount_le_blockStart (g := g) h hq
    omega
  · have hqp : q < p := by omega
    have := blockStart_add_blockCount_le_blockStart (g := g) hqp hp
    omega

end BlockLemmas

end StagingMPMD

namespace StagingMPMD

/-- C9: `GetValue` never inspects its `gndy` argument: the encoded value
depends only on the x-extent of the global array, the cell coordinates
and the step. -/
theorem getValue_gndy_independent (gndx gndy gndy2 x y step : Nat) :
    GetValue gndx gndy x y step = GetValue gndx gndy2 x y step := rfl

theorem rangeMap_getD (n k : Nat) (f : Nat → ℚ) (hk : k < n) :
    ((List.range n).map f).getD k 0 = f k := by
  have hl : k < ((List.range n).map f).length := by simpa using hk
  rw [List.getD_eq_getElem _ _ hl, List.getElem_map, List.getElem_range]

theorem flat_div (j i c : Nat) (hi : i < c) : (j * c + i) / c = j := by
  rw [Nat.mul_comm j c, Nat.mul_add_div (by omega), Nat.div_eq_of_lt hi,
    Nat.add_zero]

theorem flat_mod (j i c : Nat) (hi : i < c) : (j * c + i) % c = i := by
  rw [Nat.mul_comm j c, Nat.mul_add_mod, Nat.mod_eq_of_lt hi]

theorem flat_lt {j i a c : Nat} (hj : j < a) (hi : i < c) :
    j * c + i < a * c :=
  calc j * c + i < j * c + c := by omega
    _ = (j + 1) * c := by ring
    _ ≤ a * c := Nat.mul_le_mul_right _ (by omega)

/-- A cell covered by no payload keeps the destination's prior value. -/
theorem redistributeCell_no_match (l : List (Box × List ℚ)) (x y : Nat) (d : ℚ)
    (h : ∀ p ∈ l, ¬memBox p.1 x y) : redistributeCell l x y d = d := by
  induction l generalizing d with
  | nil => rfl
  | cons a t ih =>
    have ha : ¬memBox a.1 x y := h a (List.mem_cons_self a t)
    simp only [redistributeCell, List.foldl_cons, if_neg ha]
    exact ih d fun p hp => h p (List.mem_cons_of_mem a hp)

/-- If some payload covers the cell and every covering payload stores the
same value there, the redistribution engine yields that value. -/
theorem redistributeCell_match (l : List (Box × List ℚ)) (x y : Nat) (v : ℚ)
    (hex : ∃ p ∈ l, memBox p.1 x y)
    (hval : ∀ p ∈ l, memBox p.1 x y → payloadAt p x y = v) (d : ℚ) :
    redistributeCell l x y d = v := by
  induction l generalizing d with
  | nil =>
    obtain ⟨p, hp, _⟩ := hex
    exact absurd hp (List.not_mem_nil p)
  | cons a t ih =>
    simp only [redistributeCell, List.foldl_cons]
    by_cases hm : ∃ p ∈ t, memBox p.1 x y
    · exact ih hm (fun p hp h => hval p (List.mem_cons_of_mem a hp) h) _
    · push_neg at hm
      have ha : memBox a.1 x y := by
        obtain ⟨p, hp, hmem⟩ := hex
        rcases List.mem_cons.mp hp with rfl | hp'
        · exact hmem
        · exact absurd hmem (hm p hp')
      rw [if_pos ha]
      exact (redistributeCell_no_match t x y _ hm).trans
        (hval a (List.mem_cons_self a t) ha)

/-- Element `(j, i)` of the buffer a writer fills for one step. -/
theorem writerFill_getD (npx npy rank step j i : Nat) (hj : j < ndx)
    (hi : i < ndy) :
    (writerFill npx npy rank step).getD (j * ndy + i) 0
      = GetValue (npx * ndx) (npy * ndy) (writerOffsX npx rank + j)
          (writerOffsY npx rank + i) step := by
  unfold writerFill
  rw [rangeMap_getD _ _ _ (flat_lt hj hi), flat_div j i ndy hi,
    flat_mod j i ndy hi]

/-- Core of decomposition independence: every in-range global cell of a
sealed step resolves, whatever the destination default, to the value the
covering writer computed with `GetValue` at the cell's global coordinates. -/
theorem redistribute_writer_cell (npx npy step x y : Nat) (d : ℚ)
    (hx : x < npx * ndx) (hy : y < npy * ndy) :
    redistributeCell (writerPayloads npx npy step) x y d
      = GetValue (npx * ndx) (npy * ndy) x y step := by
  have hndx : 0 < ndx := by decide
  have hndy : 0 < ndy := by decide
  have hpx : x / ndx < npx := Nat.div_lt_of_lt_mul (by rwa [Nat.mul_comm] at hx)
  have hpy : y / ndy < npy := Nat.div_lt_of_lt_mul (by rwa [Nat.mul_comm] at hy)
  apply redistributeCell_match
  · refine ⟨(writerSel npx (x / ndx + y / ndy * npx),
      writerFill npx npy (x / ndx + y / ndy * npx) step), ?_, ?_⟩
    · refine List.mem_map.mpr ⟨x / ndx + y / ndy * npx, List.mem_range.mpr ?_, rfl⟩
      calc x / ndx + y / ndy * npx < npx + y / ndy * npx := by omega
        _ = (y / ndy + 1) * npx := by ring
        _ ≤ npy * npx := Nat.mul_le_mul_right _ (by omega)
        _ = npx * npy := Nat.mul_comm _ _
    · have hmod : (x / ndx + y / ndy * npx) % npx = x / ndx := by
        rw [Nat.add_mul_mod_self_right, Nat.mod_eq_of_lt hpx]
      have hdiv : (x / ndx + y / ndy * npx) / npx = y / ndy := by
        rw [Nat.add_mul_div_right _ _ (by omega : 0 < npx),
          Nat.div_eq_of_lt hpx, Nat.zero_add]
      have hx1 : x / ndx * ndx ≤ x := Nat.div_mul_le_self x ndx
      have hx2 : x < x / ndx * ndx + ndx := by
        have := Nat.div_add_mod x ndx
        have := Nat.mod_lt x hndx
        have := Nat.mul_comm ndx (x / ndx)
        omega
      have hy1 : y / ndy * ndy ≤ y := Nat.div_mul_le_self y ndy
      have hy2 : y < y / ndy * ndy + ndy := by
        have := Nat.div_add_mod y ndy
        have := Nat.mod_lt y hndy
        have := Nat.mul_comm ndy (y / ndy)
        omega
      refine ⟨?_, ?_, ?_, ?_⟩
      · show writerPosX npx (x / ndx + y / ndy * npx) * ndx ≤ x
        unfold writerPosX
        rw [hmod]
        exact hx1
      · show x < writerPosX npx (x / ndx + y / ndy * npx) * ndx + ndx
        unfold writerPosX
        rw [hmod]
        exact hx2
      · show writerPosY npx (x / ndx + y / ndy * npx) * ndy ≤ y
        unfold writerPosY
        rw [hdiv]
        exact hy1
      · show y < writerPosY npx (x / ndx + y / ndy * npx) * ndy + ndy
        unfold writerPosY
        rw [hdiv]
        exact hy2
  · intro p hp hmem
    obtain ⟨rank, hrank, rfl⟩ := List.mem_map.mp hp
    have h1 : writerOffsX npx rank ≤ x := hmem.1
    have h2 : x < writerOffsX npx rank + ndx := hmem.2.1
    have h3 : writerOffsY npx rank ≤ y := hmem.2.2.1
    have h4 : y < writerOffsY npx rank + ndy := hmem.2.2.2
    have hj : x - writerOffsX npx rank < ndx := by omega
    have hi : y - writerOffsY npx rank < ndy := by omega
    have hpay : payloadAt (writerSel npx rank, writerFill npx npy rank step) x y
        = (writerFill npx npy rank step).getD
            ((x - writerOffsX npx rank) * ndy + (y - writerOffsY npx rank)) 0 :=
      rfl
    rw [hpay, writerFill_getD npx npy rank step _ _ hj hi]
    have ex : writerOffsX npx rank + (x - writerOffsX npx rank) = x := by omega
    have ey : writerOffsY npx rank + (y - writerOffsY npx rank) = y := by omega
    rw [ex, ey]

/-- Element `(j, i)` of a reader's received buffer is the redistribution
engine's resolution of the corresponding global cell of its selection. -/
theorem readerReceived_getD (npxw npyw npxr npyr rank step j i : Nat)
    (hj : j < (readerSel (npxw * ndx) (npyw * ndy) npxr npyr rank).cntx)
    (hi : i < (readerSel (npxw * ndx) (npyw * ndy) npxr npyr rank).cnty) :
    (readerReceived npxw npyw npxr npyr rank step).getD
        (j * (readerSel (npxw * ndx) (npyw * ndy) npxr npyr rank).cnty + i) 0
      = redistributeCell (writerPayloads npxw npyw step)
          ((readerSel (npxw * ndx) (npyw * ndy) npxr npyr rank).offsx + j)
          ((readerSel (npxw * ndx) (npyw * ndy) npxr npyr rank).offsy + i)
          0 := by
  unfold readerReceived
  rw [rangeMap_getD _ _ _ (flat_lt hj hi), flat_div j i _ hi, flat_mod j i _ hi]

/-- C1: decomposition independence.  For every writer decomposition
`npxw × npyw`, every reader decomposition `npxr × npyr` that fits the
global shape, every reader rank and every step, the buffer the reader
receives over its selection passes `CheckData`: each element `(j, i)` of
its block equals `GetValue(gndx, gndy, offsx+j, offsy+i, step)`, the value
written by whichever writer's selection covers that global coordinate. -/
theorem decomposition_independence (npxw npyw npxr npyr rank step : Nat)
    (hr1 : 1 ≤ npxr) (hr2 : npxr ≤ npxw * ndx)
    (hr3 : 1 ≤ npyr) (hr4 : npyr ≤ npyw * ndy)
    (hrank : rank < npxr * npyr) :
    CheckData (readerReceived npxw npyw npxr npyr rank step)
      (npxw * ndx) (npyw * ndy)
      (readerSel (npxw * ndx) (npyw * ndy) npxr npyr rank).offsx
      (readerSel (npxw * ndx) (npyw * ndy) npxr npyr rank).offsy
      (readerSel (npxw * ndx) (npyw * ndy) npxr npyr rank).cntx
      (readerSel (npxw * ndx) (npyw * ndy) npxr npyr rank).cnty
      step = true := by
  have hposx : rank % npxr < npxr := Nat.mod_lt rank (by omega)
  have hposy : rank / npxr < npyr := Nat.div_lt_of_lt_mul hrank
  have hvx := blockStart_add_blockCount_le (g := npxw * ndx) hr1 hposx
  have hvy := blockStart_add_blockCount_le (g := npyw * ndy) hr3 hposy
  unfold CheckData
  rw [List.all_eq_true]
  intro j hj
  rw [List.all_eq_true]
  intro i hi
  rw [List.mem_range] at hj hi
  rw [decide_eq_true_eq]
  rw [readerReceived_getD npxw npyw npxr npyr rank step j i hj hi]
  apply redistribute_writer_cell
  · simp only [readerSel] at hj ⊢
    omega
  · simp only [readerSel] at hi ⊢
    omega

/-- Witness for C1: a 1 × 1 writer group and a 1 × 2 reader group over the
50 × 60 global array, reader rank 0 at step 0. -/
theorem decomposition_independence_witness :
    (1 ≤ 1 ∧ 1 ≤ 1 * ndx ∧ 1 ≤ 2 ∧ 2 ≤ 1 * ndy ∧ 0 < 1 * 2) ∧
      CheckData (readerReceived 1 1 1 2 0 0) (1 * ndx) (1 * ndy)
        (readerSel (1 * ndx) (1 * ndy) 1 2 0).offsx
        (readerSel (1 * ndx) (1 * ndy) 1 2 0).offsy
        (readerSel (1 * ndx) (1 * ndy) 1 2 0).cntx
        (readerSel (1 * ndx) (1 * ndy) 1 2 0).cnty
        0 = true :=
  ⟨by decide,
    decomposition_independence 1 1 1 2 0 0 (by decide) (by decide) (by decide)
      (by decide) (by decide)⟩

/-- Away from `size_t` overflow, `GetValue` is literally the spec's formula
`1000*step + x*gndx + y/1000` in exact arithmetic. -/
theorem getValue_formula (gndx gndy x y step : Nat) (hx : x < gndx)
    (hg : gndx ≤ 2 ^ 32) :
    GetValue gndx gndy x y step
      = 1000 * (step : ℚ) + (x : ℚ) * (gndx : ℚ) + (y : ℚ) / 1000 := by
  have hlt : x * gndx < 2 ^ 64 :=
    calc x * gndx < gndx * gndx := by
          exact Nat.mul_lt_mul_of_lt_of_le hx (le_refl gndx) (by omega)
      _ ≤ 2 ^ 32 * 2 ^ 32 := Nat.mul_le_mul hg hg
      _ = 2 ^ 64 := by norm_num
  unfold GetValue
  rw [Nat.mod_eq_of_lt hlt]
  push_cast
  ring

/-- C2: example-scenario value formula.  For every step of the 1-, 5- and
10-step runs and every writer rank, cell `(j, i)` of the writer's
`50 × 60` local block holds exactly
`1000*step + (offsx+j)*gndx + (offsy+i)/1000`, and the value the reader's
per-step check expects at any coordinate of its own sub-block is given by
exactly the same formula. -/
theorem example_scenario_value_formula (npxw npyw rank step j i : Nat)
    (hrank : rank < npxw * npyw) (hj : j < ndx) (hi : i < ndy)
    (hg : npxw * ndx ≤ 2 ^ 32)
    (hstep : step < scenarioSingleStep.steps ∨
      step < scenarioSlowWriter.steps ∨ step < scenarioMultipleSteps.steps) :
    (writerFill npxw npyw rank step).getD (j * ndy + i) 0
        = 1000 * (step : ℚ)
          + ((writerOffsX npxw rank + j : Nat) : ℚ) * ((npxw * ndx : Nat) : ℚ)
          + ((writerOffsY npxw rank + i : Nat) : ℚ) / 1000
      ∧ ∀ gndy2 x y, x < npxw * ndx →
        GetValue (npxw * ndx) gndy2 x y step
          = 1000 * (step : ℚ) + (x : ℚ) * ((npxw * ndx : Nat) : ℚ)
            + (y : ℚ) / 1000 := by
  have hnpx : 1 ≤ npxw := by
    rcases Nat.eq_zero_or_pos npxw with h | h
    · subst h; simp at hrank
    · omega
  constructor
  · rw [writerFill_getD npxw npyw rank step j i hj hi]
    have hlt : writerOffsX npxw rank + j < npxw * ndx := by
      have hmod : rank % npxw < npxw := Nat.mod_lt rank (by omega)
      have : writerOffsX npxw rank = rank % npxw * ndx := rfl
      have hle : rank % npxw * ndx + ndx ≤ npxw * ndx := by
        calc rank % npxw * ndx + ndx = (rank % npxw + 1) * ndx := by ring
          _ ≤ npxw * ndx := Nat.mul_le_mul_right _ (by omega)
      omega
    exact getValue_formula _ _ _ _ _ hlt hg
  · intro gndy2 x y hx
    exact getValue_formula _ _ _ _ _ hx hg

/-- Witness for C2: the 2 × 2 writer decomposition, rank 1, step 0,
cell (0, 0). -/
theorem example_scenario_value_formula_witness :
    (1 < 2 * 2 ∧ 0 < ndx ∧ 0 < ndy ∧ 2 * ndx ≤ 2 ^ 32 ∧
        (0 < scenarioSingleStep.steps ∨ 0 < scenarioSlowWriter.steps ∨
          0 < scenarioMultipleSteps.steps)) ∧
      ((writerFill 2 2 1 0).getD (0 * ndy + 0) 0
          = 1000 * ((0 : Nat) : ℚ)
            + ((writerOffsX 2 1 + 0 : Nat) : ℚ) * ((2 * ndx : Nat) : ℚ)
            + ((writerOffsY 2 1 + 0 : Nat) : ℚ) / 1000
        ∧ ∀ gndy2 x y, x < 2 * ndx →
          GetValue (2 * ndx) gndy2 x y 0
            = 1000 * ((0 : Nat) : ℚ) + (x : ℚ) * ((2 * ndx : Nat) : ℚ)
              + (y : ℚ) / 1000) :=
  ⟨by decide,
    example_scenario_value_formula 2 2 1 0 0 0 (by decide) (by decide)
      (by decide) (by decide) (Or.inl (by decide))⟩

/-- C8 counterexample: the harness's test matrix contains no writer
decomposition `7 × 1` (only `1 × 7`), no reader decomposition `7 × 1`,
and no reader decomposition `3 × 5` (only `5 × 3`), so the claim that the
matrix covers `7 × 1` and `3 × 5` on both sides fails as stated. -/
theorem test_matrix_missing_decompositions :
    (∀ p ∈ CreateRunParams, ¬(p.npx_w = 7 ∧ p.npy_w = 1)) ∧
      (∀ p ∈ CreateRunParams, ¬(p.npx_r = 7 ∧ p.npy_r = 1)) ∧
      (∀ p ∈ CreateRunParams, ¬(p.npx_r = 3 ∧ p.npy_r = 5)) := by decide

/-- C8 (amended): the test matrix exercises writer/reader pairs totalling
2 through 16 processes, and covers decompositions `1 × 1`, `1 × 7` and
`3 × 5` on the writer side and `1 × 1`, `1 × 7` and `5 × 3` on the reader
side. -/
theorem test_matrix_coverage :
    (∀ p ∈ CreateRunParams,
      2 ≤ p.npx_w * p.npy_w + p.npx_r * p.npy_r ∧
        p.npx_w * p.npy_w + p.npx_r * p.npy_r ≤ 16) ∧
      (∃ p ∈ CreateRunParams, p.npx_w * p.npy_w + p.npx_r * p.npy_r = 2) ∧
      (∃ p ∈ CreateRunParams, p.npx_w * p.npy_w + p.npx_r * p.npy_r = 16) ∧
      (∃ p ∈ CreateRunParams, p.npx_w = 1 ∧ p.npy_w = 1) ∧
      (∃ p ∈ CreateRunParams, p.npx_w = 1 ∧ p.npy_w = 7) ∧
      (∃ p ∈ CreateRunParams, p.npx_w = 3 ∧ p.npy_w = 5) ∧
      (∃ p ∈ CreateRunParams, p.npx_r = 1 ∧ p.npy_r = 1) ∧
      (∃ p ∈ CreateRunParams, p.npx_r = 1 ∧ p.npy_r = 7) ∧
      (∃ p ∈ CreateRunParams, p.npx_r = 5 ∧ p.npy_r = 3) := by decide

/-- C7: for every reader decomposition `npx × npy` with `1 ≤ npx ≤ gndx` and
`1 ≤ npy ≤ gndy`, every selection computed by the reader ranks stays inside
the global shape with strictly positive counts in both dimensions, the
selections of distinct ranks are pairwise disjoint, and together the
`npx * npy` selections cover the whole `gndx × gndy` array. -/
theorem reader_selection_valid_tiling (gndx gndy npx npy : Nat)
    (hx1 : 1 ≤ npx) (hx2 : npx ≤ gndx) (hy1 : 1 ≤ npy) (hy2 : npy ≤ gndy) :
    (∀ rank < npx * npy,
      (readerSel gndx gndy npx npy rank).offsx
          + (readerSel gndx gndy npx npy rank).cntx ≤ gndx ∧
        (readerSel gndx gndy npx npy rank).offsy
          + (readerSel gndx gndy npx npy rank).cnty ≤ gndy ∧
        0 < (readerSel gndx gndy npx npy rank).cntx ∧
        0 < (readerSel gndx gndy npx npy rank).cnty) ∧
      (∀ r < npx * npy, ∀ s < npx * npy, r ≠ s → ∀ x y,
        ¬(memBox (readerSel gndx gndy npx npy r) x y ∧
          memBox (readerSel gndx gndy npx npy s) x y)) ∧
      (∀ x < gndx, ∀ y < gndy, ∃ r < npx * npy,
        memBox (readerSel gndx gndy npx npy r) x y) := by
  have hposx : ∀ rank, rank % npx < npx := fun rank => Nat.mod_lt rank (by omega)
  have hposy : ∀ rank, rank < npx * npy → rank / npx < npy := by
    intro rank hrank
    exact Nat.div_lt_of_lt_mul hrank
  refine ⟨?_, ?_, ?_⟩
  · intro rank hrank
    exact ⟨blockStart_add_blockCount_le hx1 (hposx rank),
      blockStart_add_blockCount_le hy1 (hposy rank hrank),
      blockCount_pos hx1 hx2 (hposx rank),
      blockCount_pos hy1 hy2 (hposy rank hrank)⟩
  · intro r hr s hs hne x y hmem
    obtain ⟨⟨hrx1, hrx2, hry1, hry2⟩, ⟨hsx1, hsx2, hsy1, hsy2⟩⟩ := hmem
    rcases eq_or_ne (r % npx) (s % npx) with hmx | hmx
    · rcases eq_or_ne (r / npx) (s / npx) with hmy | hmy
      · have hr' := Nat.div_add_mod r npx
        have hs' := Nat.div_add_mod s npx
        rw [← hmy, ← hmx] at hs'
        exact hne (hr'.symm.trans hs')
      · exact blockDisjoint (hposy r hr) (hposy s hs) hmy
          ⟨hry1, hry2⟩ ⟨hsy1, hsy2⟩
    · exact blockDisjoint (hposx r) (hposx s) hmx ⟨hrx1, hrx2⟩ ⟨hsx1, hsx2⟩
  · intro x hx y hy
    obtain ⟨px, hpx, hx1', hx2'⟩ := blockCover hx1 hx2 hx
    obtain ⟨py, hpy, hy1', hy2'⟩ := blockCover hy1 hy2 hy
    refine ⟨px + py * npx, ?_, ?_⟩
    · calc px + py * npx < npx + py * npx := by omega
        _ = (py + 1) * npx := by ring
        _ ≤ npy * npx := Nat.mul_le_mul_right _ (by omega)
        _ = npx * npy := Nat.mul_comm _ _
    · have hmod : (px + py * npx) % npx = px := by
        rw [Nat.add_mul_mod_self_right, Nat.mod_eq_of_lt hpx]
      have hdiv : (px + py * npx) / npx = py := by
        rw [Nat.add_mul_div_right _ _ (by omega : 0 < npx),
          Nat.div_eq_of_lt hpx, Nat.zero_add]
      exact ⟨by rw [readerSel, hmod] at *; exact hx1',
        by rw [readerSel, hmod] at *; exact hx2',
        by rw [readerSel, hdiv] at *; exact hy1',
        by rw [readerSel, hdiv] at *; exact hy2'⟩

/-- Witness for C7 at the concrete decomposition of the harness's
8-process case: global array 50 × 60 read by a 1 × 7 reader grid. -/
theorem reader_selection_valid_tiling_witness :
    (1 ≤ 1 ∧ 1 ≤ 50 ∧ 1 ≤ 7 ∧ 7 ≤ 60) ∧
      ((∀ rank < 1 * 7,
        (readerSel 50 60 1 7 rank).offsx
            + (readerSel 50 60 1 7 rank).cntx ≤ 50 ∧
          (readerSel 50 60 1 7 rank).offsy
            + (readerSel 50 60 1 7 rank).cnty ≤ 60 ∧
          0 < (readerSel 50 60 1 7 rank).cntx ∧
          0 < (readerSel 50 60 1 7 rank).cnty) ∧
        (∀ r < 1 * 7, ∀ s < 1 * 7, r ≠ s → ∀ x y,
          ¬(memBox (readerSel 50 60 1 7 r) x y ∧
            memBox (readerSel 50 60 1 7 s) x y)) ∧
        (∀ x < 50, ∀ y < 60, ∃ r < 1 * 7,
          memBox (readerSel 50 60 1 7 r) x y)) :=
  ⟨by decide,
    reader_selection_valid_tiling 50 60 1 7 (by decide) (by decide)
      (by decide) (by decide)⟩

/-- The reader loop admits exactly the sealed steps from its current
position upwards, in order, and ends with `EndOfStream` exactly when the
writer side has closed the stream. -/
theorem readerLoop_eq (S k : Nat) (c : Bool) :
    readerLoop ⟨S, c⟩ ⟨k⟩ =
      (List.range' k (S - k),
        if c then StepStatus.EndOfStream else StepStatus.NotReady) := by
  suffices h : ∀ n k, S - k = n →
      readerLoop ⟨S, c⟩ ⟨k⟩ =
        (List.range' k (S - k),
          if c then StepStatus.EndOfStream else StepStatus.NotReady) from
    h (S - k) k rfl
  intro n
  induction n with
  | zero =>
    intro k hk
    rw [readerLoop]
    have hnk : ¬k < S := by omega
    rw [dif_neg hnk, hk, List.range']
    cases c <;> simp
  | succ n ih =>
    intro k hk
    rw [readerLoop]
    have hnk : k < S := by omega
    rw [dif_pos hnk, ih (k + 1) (by omega)]
    have h1 : S - k = n + 1 := hk
    have h2 : S - (k + 1) = n := by omega
    rw [h1, h2, List.range'_succ]

/-- C3: step ordering.  Against a stream whose writer group sealed `S`
steps and closed, a reader starting at the first sealed step admits
exactly the step sequence `0, 1, ..., S-1` — strictly increasing with no
gaps, so its k-th admitted step is writer step `k`, the correspondence the
harness's per-step counter and `CheckData` call assert — and the loop then
ends with `EndOfStream`. -/
theorem step_ordering (S : Nat) :
    (readerLoop ⟨S, true⟩ ⟨0⟩).1 = List.range S ∧
      List.Chain' (· < ·) (readerLoop ⟨S, true⟩ ⟨0⟩).1 ∧
      (readerLoop ⟨S, true⟩ ⟨0⟩).2 = StepStatus.EndOfStream := by
  have h := readerLoop_eq S 0 true
  have hr : List.range' 0 (S - 0) = List.range S := by
    rw [Nat.sub_zero, List.range_eq_range']
  refine ⟨?_, ?_, ?_⟩
  · rw [h, hr]
  · rw [h, hr]
    exact List.pairwise_lt_range S |>.chain'
  · rw [h]
    rfl

/-- C4: `BeginStep(NextAvailable, timeout)` status contract of the
spec-modelled controller: the result is `OK` exactly when a next
not-yet-admitted sealed step exists (and then that step is admitted and
the controller advances), `EndOfStream` exactly when no such step exists
and the writer side has closed, and `NotReady` exactly when no such step
exists and the stream is still open ("timeout elapsed"); the harness
always passes timeout 60. -/
theorem beginStep_status_contract (st : StreamState) (rd : ReaderState) :
    ((beginStepNextAvailable st rd).1 = StepStatus.OK ↔
        rd.nextStep < st.sealedCount) ∧
      ((beginStepNextAvailable st rd).1 = StepStatus.OK →
        (beginStepNextAvailable st rd).2.1 = some rd.nextStep ∧
          (beginStepNextAvailable st rd).2.2 = ⟨rd.nextStep + 1⟩) ∧
      ((beginStepNextAvailable st rd).1 = StepStatus.NotReady ↔
        ¬rd.nextStep < st.sealedCount ∧ st.closed = false) ∧
      ((beginStepNextAvailable st rd).1 = StepStatus.EndOfStream ↔
        ¬rd.nextStep < st.sealedCount ∧ st.closed = true) ∧
      readerBeginStepTimeout = 60 := by
  unfold beginStepNextAvailable
  split_ifs with h1 h2 <;> simp_all <;> rfl

/-- Witness for C4 at a concrete controller state: 2 sealed steps, stream
still open, reader about to admit step 2. -/
theorem beginStep_status_contract_witness :
    ((beginStepNextAvailable ⟨2, false⟩ ⟨2⟩).1 = StepStatus.OK ↔
        (2 : Nat) < 2) ∧
      ((beginStepNextAvailable ⟨2, false⟩ ⟨2⟩).1 = StepStatus.OK →
        (beginStepNextAvailable ⟨2, false⟩ ⟨2⟩).2.1 = some 2 ∧
          (beginStepNextAvailable ⟨2, false⟩ ⟨2⟩).2.2 = ⟨2 + 1⟩) ∧
      ((beginStepNextAvailable ⟨2, false⟩ ⟨2⟩).1 = StepStatus.NotReady ↔
        ¬(2 : Nat) < 2 ∧ false = false) ∧
      ((beginStepNextAvailable ⟨2, false⟩ ⟨2⟩).1 = StepStatus.EndOfStream ↔
        ¬(2 : Nat) < 2 ∧ false = true) ∧
      readerBeginStepTimeout = 60 :=
  beginStep_status_contract ⟨2, false⟩ ⟨2⟩

/-- C5: writer-close propagation.  Once the writer side has closed the
stream, a reader at any position drains every remaining sealed step (one
`OK` admission each) and its next `BeginStep` then returns `EndOfStream` —
the loop never ends parked on `NotReady`. -/
theorem writer_close_propagation (st : StreamState) (rd : ReaderState)
    (hclosed : st.closed = true) :
    (readerLoop st rd).1.length = st.sealedCount - rd.nextStep ∧
      (readerLoop st rd).2 = StepStatus.EndOfStream := by
  obtain ⟨S, c⟩ := st
  obtain ⟨k⟩ := rd
  simp only at hclosed
  subst hclosed
  rw [readerLoop_eq]
  exact ⟨List.length_range' _ _ _, rfl⟩

/-- Witness for C5 at the SlowWriter/SlowReader scenario length: 5 sealed
steps, stream closed, reader still at step 0. -/
theorem writer_close_propagation_witness :
    (true = true) ∧
      ((readerLoop ⟨scenarioSlowWriter.steps, true⟩ ⟨0⟩).1.length =
          scenarioSlowWriter.steps - 0 ∧
        (readerLoop ⟨scenarioSlowWriter.steps, true⟩ ⟨0⟩).2 =
          StepStatus.EndOfStream) :=
  ⟨rfl, writer_close_propagation ⟨scenarioSlowWriter.steps, true⟩ ⟨0⟩ rfl⟩

/-- A successful `Define` leaves the declaration retrievable at the
returned handle. -/
theorem defineVariable_get (reg : List (String × VarDecl)) (name : String)
    (ty : TypeTag) (shape : List Nat) (reg2 : List (String × VarDecl))
    (h0 : Nat) (h : DefineVariable reg name ty shape = .ok (reg2, h0)) :
    reg2[h0]? = some (name, ⟨ty, shape⟩) := by
  induction reg generalizing reg2 h0 with
  | nil =>
    simp only [DefineVariable, Except.ok.injEq, Prod.mk.injEq] at h
    obtain ⟨rfl, rfl⟩ := h
    simp
  | cons e rest ih =>
    simp only [DefineVariable] at h
    split_ifs at h with he hd
    · simp only [Except.ok.injEq, Prod.mk.injEq] at h
      obtain ⟨rfl, rfl⟩ := h
      have he2 : e = (name, ⟨ty, shape⟩) := by
        obtain ⟨a, b⟩ := e
        simp_all
      simp [he2]
    · rcases hrec : DefineVariable rest name ty shape with err | ok
      · rw [hrec] at h
        exact absurd h (by simp)
      · obtain ⟨reg3, i⟩ := ok
        rw [hrec] at h
        simp only [Except.ok.injEq, Prod.mk.injEq] at h
        obtain ⟨rfl, rfl⟩ := h
        simpa using ih reg3 i hrec

/-- C6: idempotent redefinition.  After any successful `DefineVariable`
for a name, defining the same name again with the identical type and
global shape returns the very same handle with the registry unchanged (a
no-op), while defining it with a different type or shape fails with
`DuplicateDefinition`. -/
theorem define_idempotent (reg : List (String × VarDecl)) (name : String)
    (ty : TypeTag) (shape : List Nat) (reg2 : List (String × VarDecl))
    (h0 : Nat) (hfirst : DefineVariable reg name ty shape = .ok (reg2, h0)) :
    DefineVariable reg2 name ty shape = .ok (reg2, h0) ∧
      ∀ ty2 shape2, ¬(ty2 = ty ∧ shape2 = shape) →
        DefineVariable reg2 name ty2 shape2 = .error .DuplicateDefinition := by
  induction reg generalizing reg2 h0 with
  | nil =>
    simp only [DefineVariable, Except.ok.injEq, Prod.mk.injEq] at hfirst
    obtain ⟨rfl, rfl⟩ := hfirst
    refine ⟨by simp [DefineVariable], ?_⟩
    intro ty2 shape2 hne
    simp only [DefineVariable, if_pos]
    rw [if_neg]
    simp only [VarDecl.mk.injEq]
    tauto
  | cons e rest ih =>
    simp only [DefineVariable] at hfirst
    split_ifs at hfirst with he hd
    · simp only [Except.ok.injEq, Prod.mk.injEq] at hfirst
      obtain ⟨rfl, rfl⟩ := hfirst
      refine ⟨by simp [DefineVariable, he, hd], ?_⟩
      intro ty2 shape2 hne
      simp only [DefineVariable, if_pos he]
      rw [if_neg]
      rw [hd]
      simp only [VarDecl.mk.injEq]
      tauto
    · rcases hrec : DefineVariable rest name ty shape with err | ok
      · rw [hrec] at hfirst
        exact absurd hfirst (by simp)
      · obtain ⟨reg3, i⟩ := ok
        rw [hrec] at hfirst
        simp only [Except.ok.injEq, Prod.mk.injEq] at hfirst
        obtain ⟨rfl, rfl⟩ := hfirst
        obtain ⟨ih1, ih2⟩ := ih reg3 i hrec
        refine ⟨by simp [DefineVariable, he, ih1], ?_⟩
        intro ty2 shape2 hne
        simp [DefineVariable, he, ih2 ty2 shape2 hne]

/-- Witness for C6: first definition of `myArray` with shape 100 × 120 in
an empty registry, redefined identically and with a different shape. -/
theorem define_idempotent_witness :
    (DefineVariable [] "myArray" TypeTag.float32 [100, 120] =
        .ok ([("myArray", ⟨TypeTag.float32, [100, 120]⟩)], 0)) ∧
      (DefineVariable [("myArray", ⟨TypeTag.float32, [100, 120]⟩)] "myArray"
          TypeTag.float32 [100, 120] =
        .ok ([("myArray", ⟨TypeTag.float32, [100, 120]⟩)], 0) ∧
      ∀ ty2 shape2, ¬(ty2 = TypeTag.float32 ∧ shape2 = [100, 120]) →
        DefineVariable [("myArray", ⟨TypeTag.float32, [100, 120]⟩)] "myArray"
            ty2 shape2 =
          .error .DuplicateDefinition) :=
  ⟨rfl,
    define_idempotent [] "myArray" TypeTag.float32 [100, 120]
      [("myArray", ⟨TypeTag.float32, [100, 120]⟩)] 0 rfl⟩

/-- C10: postcondition of `EnginePy::DefineVariableInADIOS<T>`.  When it
returns, the passed `VariablePy` carries a set (non-null) `m_VariablePtr`
addressing the variable registered under its name with element type `T`
and its global dimensions, and `m_IsVariableDefined` is `true`; a
subsequent unchecked `WriteVariableInADIOS<T>` therefore reaches a
well-typed variable, while reinterpreting the pointer at any other
element type is undefined. -/
theorem defineVariableInADIOS_postcondition (reg reg2 : List (String × VarDecl))
    (ty : TypeTag) (v v2 : VariablePy)
    (h : DefineVariableInADIOS reg ty v = .ok (reg2, v2)) :
    v2.m_IsVariableDefined = true ∧
      v2.m_VariablePtr.isSome = true ∧
      (∃ h0, v2.m_VariablePtr = some h0 ∧
        reg2[h0]? = some (v.m_Name, ⟨ty, v.m_GlobalDimensions⟩)) ∧
      (∀ data : List ℚ, (WriteVariableInADIOS reg2 ty v2 data).isSome = true) ∧
      (∀ data : List ℚ, ∀ ty2, ty2 ≠ ty →
        WriteVariableInADIOS reg2 ty2 v2 data = none) := by
  unfold DefineVariableInADIOS at h
  rcases hrec : DefineVariable reg v.m_Name ty v.m_GlobalDimensions
    with err | ok
  · rw [hrec] at h
    exact absurd h (by simp)
  · obtain ⟨reg3, h0⟩ := ok
    rw [hrec] at h
    simp only [Except.ok.injEq, Prod.mk.injEq] at h
    obtain ⟨rfl, rfl⟩ := h
    have hget := defineVariable_get reg v.m_Name ty v.m_GlobalDimensions
      reg3 h0 hrec
    refine ⟨rfl, rfl, ⟨h0, rfl, hget⟩, ?_, ?_⟩
    · intro data
      unfold WriteVariableInADIOS
      simp [hget]
    · intro data ty2 hne
      unfold WriteVariableInADIOS
      simp only [hget]
      rw [if_neg (by simpa using fun hc => hne hc.symm)]

/-- Witness for C10: defining `myArray` (float, global shape 100 × 120)
through the binding on an empty registry. -/
theorem defineVariableInADIOS_postcondition_witness :
    (DefineVariableInADIOS [] TypeTag.float32
          ⟨"myArray", [50, 60], [100, 120], [0, 0], none, false⟩ =
        .ok ([("myArray", ⟨TypeTag.float32, [100, 120]⟩)],
          ⟨"myArray", [50, 60], [100, 120], [0, 0], some 0, true⟩)) ∧
      ((⟨"myArray", [50, 60], [100, 120], [0, 0], some 0, true⟩ :
            VariablePy).m_IsVariableDefined = true ∧
        (⟨"myArray", [50, 60], [100, 120], [0, 0], some 0, true⟩ :
            VariablePy).m_VariablePtr.isSome = true ∧
        (∃ h0, (⟨"myArray", [50, 60], [100, 120], [0, 0], some 0, true⟩ :
            VariablePy).m_VariablePtr = some h0 ∧
          ([("myArray", ⟨TypeTag.float32, [100, 120]⟩)] :
              List (String × VarDecl))[h0]? =
            some ("myArray", ⟨TypeTag.float32, [100, 120]⟩)) ∧
        (∀ data : List ℚ,
          (WriteVariableInADIOS [("myArray", ⟨TypeTag.float32, [100, 120]⟩)]
              TypeTag.float32
              ⟨"myArray", [50, 60], [100, 120], [0, 0], some 0, true⟩
              data).isSome = true) ∧
        (∀ data : List ℚ, ∀ ty2, ty2 ≠ TypeTag.float32 →
          WriteVariableInADIOS [("myArray", ⟨TypeTag.float32, [100, 120]⟩)]
              ty2 ⟨"myArray", [50, 60], [100, 120], [0, 0], some 0, true⟩
              data = none)) :=
  ⟨rfl,
    defineVariableInADIOS_postcondition []
      [("myArray", ⟨TypeTag.float32, [100, 120]⟩)] TypeTag.float32
      ⟨"myArray", [50, 60], [100, 120], [0, 0], none, false⟩
      ⟨"myArray", [50, 60], [100, 120], [0, 0], some 0, true⟩ rfl⟩

end StagingMPMD
